import Mathlib

/-!
Shallow embedding of `include/etl/bresenham_line.h` (class `etl::bresenham_line`).

The coordinate type `TCoordinate` is modelled as a pair of integers; the
working type `TWorking` (default `int`) is modelled as `Int` (the spec places
overflow outside the contract: the working type must be wide enough).
The C++ object's mutable members become fields of a state structure; each
member function becomes a pure function on that state.
-/

/-- A coordinate with integral `x` and `y` members (the `TCoordinate`
template parameter). -/
structure Coordinate where
  x : Int
  y : Int
deriving DecidableEq, Repr

/-- The state of an `etl::bresenham_line` object: its data members
(header lines 274-283). -/
structure bresenham_line where
  first : Coordinate
  coordinate : Coordinate
  x_increment : Int
  y_increment : Int
  dx : Int
  dy : Int
  total_n_coordinates : Int
  n_coordinates_remaining : Int
  balance : Int
  do_minor_increment : Bool
deriving DecidableEq, Repr

namespace bresenham_line

/-- `is_y_major_axis()` (lines 224-227): `dx < dy` on the stored
(post-construction: doubled) deltas. -/
def is_y_major_axis (b : bresenham_line) : Bool :=
  b.dx < b.dy

/-- The raw x delta computed in the constructor's initializer list
(line 161): `(last.x < first.x) ? first.x - last.x : last.x - first.x`. -/
def rawDx (first_ last_ : Coordinate) : Int :=
  if last_.x < first_.x then first_.x - last_.x else last_.x - first_.x

/-- The raw y delta computed in the constructor's initializer list
(line 162): `(last.y < first.y) ? first.y - last.y : last.y - first.y`. -/
def rawDy (first_ last_ : Coordinate) : Int :=
  if last_.y < first_.y then first_.y - last_.y else last_.y - first_.y

/-- The constructor `bresenham_line(first_, last_)` (lines 156-181).
In the body, `is_y_major_axis()` sees the raw (not yet doubled) deltas.
In the Y-major branch: `total = dy + 1; dx *= 2; balance = dx - dy; dy *= 2`,
so `balance = 2*dx0 - dy0` (the `dx` doubling happens before the `balance`
assignment, the `dy` doubling after).  Symmetrically for X-major. -/
def construct (first_ last_ : Coordinate) : bresenham_line :=
  if rawDx first_ last_ < rawDy first_ last_ then
    { first := first_
      coordinate := first_
      x_increment := if last_.x < first_.x then -1 else 1
      y_increment := if last_.y < first_.y then -1 else 1
      dx := rawDx first_ last_ * 2
      dy := rawDy first_ last_ * 2
      total_n_coordinates := rawDy first_ last_ + 1
      n_coordinates_remaining := rawDy first_ last_ + 1 - 1
      balance := rawDx first_ last_ * 2 - rawDy first_ last_
      do_minor_increment := false }
  else
    { first := first_
      coordinate := first_
      x_increment := if last_.x < first_.x then -1 else 1
      y_increment := if last_.y < first_.y then -1 else 1
      dx := rawDx first_ last_ * 2
      dy := rawDy first_ last_ * 2
      total_n_coordinates := rawDx first_ last_ + 1
      n_coordinates_remaining := rawDx first_ last_ + 1 - 1
      balance := rawDy first_ last_ * 2 - rawDx first_ last_
      do_minor_increment := false }

/-- `next()` (lines 232-262): one application of the step algorithm. -/
def next (b : bresenham_line) : bresenham_line :=
  if b.is_y_major_axis then
    -- Y major axis: the minor (x) advance happens only under
    -- `do_minor_increment`, the major (y) advance always happens.
    { b with
      coordinate :=
        ⟨(if b.do_minor_increment then b.coordinate.x + b.x_increment else b.coordinate.x),
         b.coordinate.y + b.y_increment⟩
      balance := (if b.do_minor_increment then b.balance - b.dy else b.balance) + b.dx
      n_coordinates_remaining := b.n_coordinates_remaining - 1
      do_minor_increment :=
        decide (0 ≤ (if b.do_minor_increment then b.balance - b.dy else b.balance) + b.dx) }
  else
    -- X major axis.
    { b with
      coordinate :=
        ⟨b.coordinate.x + b.x_increment,
         (if b.do_minor_increment then b.coordinate.y + b.y_increment else b.coordinate.y)⟩
      balance := (if b.do_minor_increment then b.balance - b.dx else b.balance) + b.dy
      n_coordinates_remaining := b.n_coordinates_remaining - 1
      do_minor_increment :=
        decide (0 ≤ (if b.do_minor_increment then b.balance - b.dx else b.balance) + b.dy) }

/-- `begin()` (lines 187-193): rewinds `n_coordinates_remaining` and
`coordinate`; the other members (`balance`, `do_minor_increment`, …) are
left as they are. -/
def begin (b : bresenham_line) : bresenham_line :=
  { b with
    n_coordinates_remaining := b.total_n_coordinates - 1
    coordinate := b.first }

/-- `size()` (lines 206-209): `total_n_coordinates` cast to `size_t`. -/
def size (b : bresenham_line) : Nat :=
  b.total_n_coordinates.toNat

/-- `count()` (lines 214-217). -/
def count (b : bresenham_line) : Nat :=
  (b.total_n_coordinates - b.n_coordinates_remaining).toNat

/-- `get_coordinate()` (lines 267-270). -/
def get_coordinate (b : bresenham_line) : Coordinate :=
  b.coordinate

/-- The state reached after `k` calls to `next()`. -/
def stepN (b : bresenham_line) : Nat → bresenham_line
  | 0 => b
  | k + 1 => (stepN b k).next

/-- The coordinates exposed by a full iterator traversal starting at a state
with `n` coordinates still to come: the loop `for (it = ...; it != end; ++it)
use(*it);` exposes the current coordinate, then `operator++` (lines 99-113)
calls `next()` unless `n_coordinates_remaining == 0`.  Since every `next()`
decrements `n_coordinates_remaining` by one, the traversal from a state `b`
exposes `collectAux b.n_coordinates_remaining.toNat b`. -/
def collectAux : Nat → bresenham_line → List Coordinate
  | 0, b => [b.coordinate]
  | n + 1, b => b.coordinate :: collectAux n b.next

/-- The full sequence of coordinates produced by traversing from state `b`
(begin-to-end loop over the iterators). -/
def traversal (b : bresenham_line) : List Coordinate :=
  collectAux b.n_coordinates_remaining.toNat b

/-- The state of the generator after a full traversal (every remaining
`next()` has been applied; the final `operator++` only nulls the iterator). -/
def runAll (b : bresenham_line) : bresenham_line :=
  stepN b b.n_coordinates_remaining.toNat

end bresenham_line

/-- The iterator (lines 64-150): it holds only a pointer to the generator,
null for the end iterator.  We model the pointee by value; the program ever
has one generator per iterator, so pointer equality (lines 126-129)
coincides with this. -/
structure LineIter where
  p_bresenham_line : Option bresenham_line
deriving DecidableEq

/-- `end()` (lines 198-201): a default-constructed iterator, null pointer. -/
def iter_end : LineIter := ⟨none⟩

/-- `operator++` (lines 99-113) applied to a live iterator over generator
state `b`: if `n_coordinates_remaining == 0` the iterator becomes the end
iterator, otherwise the generator steps. -/
def iter_inc (b : bresenham_line) : LineIter :=
  if b.n_coordinates_remaining = 0 then ⟨none⟩ else ⟨some b.next⟩

/-- `operator*` (lines 118-121): `p_bresenham_line->get_coordinate()`;
on the end iterator the pointer is null and no coordinate exists
(modelled as `none`). -/
def iter_deref (it : LineIter) : Option Coordinate :=
  it.p_bresenham_line.map bresenham_line.get_coordinate

namespace bresenham_line

/-- The component of a coordinate along the state's major axis
(`y` when `is_y_major_axis()`, else `x`). -/
def majorVal (s : bresenham_line) (c : Coordinate) : Int :=
  if s.is_y_major_axis then c.y else c.x

/-- The component of a coordinate along the state's minor axis. -/
def minorVal (s : bresenham_line) (c : Coordinate) : Int :=
  if s.is_y_major_axis then c.x else c.y

/-- The increment applied along the state's major axis on every step. -/
def majorStep (s : bresenham_line) : Int :=
  if s.is_y_major_axis then s.y_increment else s.x_increment

/-- The increment optionally applied along the state's minor axis. -/
def minorStep (s : bresenham_line) : Int :=
  if s.is_y_major_axis then s.x_increment else s.y_increment

/-- The major-axis component for the line between endpoints `a` and `b`
(`y` when `|b.y - a.y| > |b.x - a.x|`, else `x`). -/
def majorComp (a b : Coordinate) (c : Coordinate) : Int :=
  if rawDx a b < rawDy a b then c.y else c.x

/-! ### Basic facts about `next` -/

theorem next_first (b : bresenham_line) : b.next.first = b.first := by
  unfold next; split <;> rfl

theorem next_x_increment (b : bresenham_line) : b.next.x_increment = b.x_increment := by
  unfold next; split <;> rfl

theorem next_y_increment (b : bresenham_line) : b.next.y_increment = b.y_increment := by
  unfold next; split <;> rfl

theorem next_dx (b : bresenham_line) : b.next.dx = b.dx := by
  unfold next; split <;> rfl

theorem next_dy (b : bresenham_line) : b.next.dy = b.dy := by
  unfold next; split <;> rfl

theorem next_total (b : bresenham_line) :
    b.next.total_n_coordinates = b.total_n_coordinates := by
  unfold next; split <;> rfl

theorem next_remaining (b : bresenham_line) :
    b.next.n_coordinates_remaining = b.n_coordinates_remaining - 1 := by
  unfold next; split <;> rfl

theorem next_is_y_major (b : bresenham_line) :
    b.next.is_y_major_axis = b.is_y_major_axis := by
  unfold is_y_major_axis
  rw [next_dx, next_dy]

/-- On the major axis, `next` advances by exactly the increment. -/
theorem next_major (b : bresenham_line) :
    majorVal b b.next.coordinate = majorVal b b.coordinate + majorStep b := by
  unfold majorVal majorStep next
  by_cases h : b.is_y_major_axis <;> simp [h]

/-- On the minor axis, `next` advances by `0` or by the increment. -/
theorem next_minor (b : bresenham_line) :
    minorVal b b.next.coordinate = minorVal b b.coordinate ∨
    minorVal b b.next.coordinate = minorVal b b.coordinate + minorStep b := by
  unfold minorVal minorStep next
  by_cases h : b.is_y_major_axis <;> by_cases h2 : b.do_minor_increment <;> simp [h, h2]

/-- On the x axis, `next` advances by `0` or by `x_increment`. -/
theorem next_x (b : bresenham_line) :
    b.next.coordinate.x = b.coordinate.x ∨
    b.next.coordinate.x = b.coordinate.x + b.x_increment := by
  unfold next
  by_cases h : b.is_y_major_axis <;> by_cases h2 : b.do_minor_increment <;> simp [h, h2]

/-- On the y axis, `next` advances by `0` or by `y_increment`. -/
theorem next_y (b : bresenham_line) :
    b.next.coordinate.y = b.coordinate.y ∨
    b.next.coordinate.y = b.coordinate.y + b.y_increment := by
  unfold next
  by_cases h : b.is_y_major_axis <;> by_cases h2 : b.do_minor_increment <;> simp [h, h2]

/-! ### Facts about `stepN` -/

theorem stepN_first (b : bresenham_line) (k : Nat) : (stepN b k).first = b.first := by
  induction k with
  | zero => rfl
  | succ k ih => rw [stepN, next_first, ih]

theorem stepN_x_increment (b : bresenham_line) (k : Nat) :
    (stepN b k).x_increment = b.x_increment := by
  induction k with
  | zero => rfl
  | succ k ih => rw [stepN, next_x_increment, ih]

theorem stepN_y_increment (b : bresenham_line) (k : Nat) :
    (stepN b k).y_increment = b.y_increment := by
  induction k with
  | zero => rfl
  | succ k ih => rw [stepN, next_y_increment, ih]

theorem stepN_dx (b : bresenham_line) (k : Nat) : (stepN b k).dx = b.dx := by
  induction k with
  | zero => rfl
  | succ k ih => rw [stepN, next_dx, ih]

theorem stepN_dy (b : bresenham_line) (k : Nat) : (stepN b k).dy = b.dy := by
  induction k with
  | zero => rfl
  | succ k ih => rw [stepN, next_dy, ih]

theorem stepN_total (b : bresenham_line) (k : Nat) :
    (stepN b k).total_n_coordinates = b.total_n_coordinates := by
  induction k with
  | zero => rfl
  | succ k ih => rw [stepN, next_total, ih]

theorem stepN_is_y_major (b : bresenham_line) (k : Nat) :
    (stepN b k).is_y_major_axis = b.is_y_major_axis := by
  induction k with
  | zero => rfl
  | succ k ih => rw [stepN, next_is_y_major, ih]

theorem stepN_shift (b : bresenham_line) (k : Nat) :
    stepN b.next k = (stepN b k).next := by
  induction k with
  | zero => rfl
  | succ k ih => rw [stepN, ih, stepN]

/-- The traversal exposes exactly the coordinates of the iterated states. -/
theorem collectAux_eq_map (n : Nat) (b : bresenham_line) :
    collectAux n b = (List.range (n + 1)).map (fun k => (stepN b k).coordinate) := by
  induction n generalizing b with
  | zero => rfl
  | succ n ih =>
      rw [collectAux, ih, List.range_succ_eq_map (n + 1)]
      simp only [List.map_cons, List.map_map]
      refine List.cons_eq_cons.mpr ⟨rfl, ?_⟩
      apply List.map_congr_left
      intro k _
      simp only [Function.comp_apply, stepN_shift]
      rfl

/-! ### Facts about the raw deltas and the constructed state -/

theorem rawDx_nonneg (a b : Coordinate) : 0 ≤ rawDx a b := by
  unfold rawDx; split <;> omega

theorem rawDy_nonneg (a b : Coordinate) : 0 ≤ rawDy a b := by
  unfold rawDy; split <;> omega

theorem rawDx_comm (a b : Coordinate) : rawDx b a = rawDx a b := by
  unfold rawDx; split <;> split <;> omega

theorem rawDy_comm (a b : Coordinate) : rawDy b a = rawDy a b := by
  unfold rawDy; split <;> split <;> omega

theorem rawDx_natAbs (a b : Coordinate) : rawDx a b = ((b.x - a.x).natAbs : Int) := by
  unfold rawDx; split <;> omega

theorem rawDy_natAbs (a b : Coordinate) : rawDy a b = ((b.y - a.y).natAbs : Int) := by
  unfold rawDy; split <;> omega

theorem construct_first (a b : Coordinate) : (construct a b).first = a := by
  unfold construct; split <;> rfl

theorem construct_coordinate (a b : Coordinate) : (construct a b).coordinate = a := by
  unfold construct; split <;> rfl

theorem construct_x_increment (a b : Coordinate) :
    (construct a b).x_increment = if b.x < a.x then -1 else 1 := by
  unfold construct; split <;> rfl

theorem construct_y_increment (a b : Coordinate) :
    (construct a b).y_increment = if b.y < a.y then -1 else 1 := by
  unfold construct; split <;> rfl

theorem construct_x_increment_pm (a b : Coordinate) :
    (construct a b).x_increment = 1 ∨ (construct a b).x_increment = -1 := by
  rw [construct_x_increment]; split <;> simp

theorem construct_y_increment_pm (a b : Coordinate) :
    (construct a b).y_increment = 1 ∨ (construct a b).y_increment = -1 := by
  rw [construct_y_increment]; split <;> simp

theorem construct_dx (a b : Coordinate) : (construct a b).dx = rawDx a b * 2 := by
  unfold construct; split <;> rfl

theorem construct_dy (a b : Coordinate) : (construct a b).dy = rawDy a b * 2 := by
  unfold construct; split <;> rfl

theorem construct_total (a b : Coordinate) :
    (construct a b).total_n_coordinates =
      if rawDx a b < rawDy a b then rawDy a b + 1 else rawDx a b + 1 := by
  unfold construct; split <;> simp_all

theorem construct_remaining (a b : Coordinate) :
    (construct a b).n_coordinates_remaining =
      (if rawDx a b < rawDy a b then rawDy a b else rawDx a b) := by
  unfold construct; split <;> simp_all

theorem construct_is_y_major (a b : Coordinate) :
    (construct a b).is_y_major_axis = decide (rawDx a b < rawDy a b) := by
  simp only [is_y_major_axis, construct_dx, construct_dy, decide_eq_decide]
  omega

/-! ### Closed forms along the major axis -/

theorem next_x_of_x_major (b : bresenham_line) (hb : b.is_y_major_axis = false) :
    b.next.coordinate.x = b.coordinate.x + b.x_increment := by
  simp [next, hb]

theorem next_y_of_y_major (b : bresenham_line) (hb : b.is_y_major_axis = true) :
    b.next.coordinate.y = b.coordinate.y + b.y_increment := by
  simp [next, hb]

theorem stepN_x_closed (a b : Coordinate) (h : ¬ rawDx a b < rawDy a b) (k : Nat) :
    (stepN (construct a b) k).coordinate.x = a.x + k * (construct a b).x_increment := by
  induction k with
  | zero => simp [stepN, construct_coordinate]
  | succ k ih =>
      have hmaj : (stepN (construct a b) k).is_y_major_axis = false := by
        rw [stepN_is_y_major, construct_is_y_major]; simp [h]
      rw [stepN, next_x_of_x_major _ hmaj, ih, stepN_x_increment]
      push_cast
      ring

theorem stepN_y_closed (a b : Coordinate) (h : rawDx a b < rawDy a b) (k : Nat) :
    (stepN (construct a b) k).coordinate.y = a.y + k * (construct a b).y_increment := by
  induction k with
  | zero => simp [stepN, construct_coordinate]
  | succ k ih =>
      have hmaj : (stepN (construct a b) k).is_y_major_axis = true := by
        rw [stepN_is_y_major, construct_is_y_major]; simp [h]
      rw [stepN, next_y_of_y_major _ hmaj, ih, stepN_y_increment]
      push_cast
      ring

theorem stepN_major_closed (a b : Coordinate) (k : Nat) :
    majorVal (construct a b) (stepN (construct a b) k).coordinate
      = majorVal (construct a b) a + k * majorStep (construct a b) := by
  by_cases h : rawDx a b < rawDy a b
  · have hg : (construct a b).is_y_major_axis = true := by
      rw [construct_is_y_major]; simp [h]
    simp [majorVal, majorStep, hg, stepN_y_closed a b h k]
  · have hg : (construct a b).is_y_major_axis = false := by
      rw [construct_is_y_major]; simp [h]
    simp [majorVal, majorStep, hg, stepN_x_closed a b h k]

theorem construct_majorStep_pm (a b : Coordinate) :
    majorStep (construct a b) = 1 ∨ majorStep (construct a b) = -1 := by
  unfold majorStep; split
  · exact construct_y_increment_pm a b
  · exact construct_x_increment_pm a b

theorem construct_minorStep_pm (a b : Coordinate) :
    minorStep (construct a b) = 1 ∨ minorStep (construct a b) = -1 := by
  unfold minorStep; split
  · exact construct_x_increment_pm a b
  · exact construct_y_increment_pm a b

/-! ### Per-axis monotonicity -/

theorem stepN_x_mono (g : bresenham_line) (k l : Nat) (hkl : k ≤ l) :
    (g.x_increment = 1 → (stepN g k).coordinate.x ≤ (stepN g l).coordinate.x) ∧
    (g.x_increment = -1 → (stepN g l).coordinate.x ≤ (stepN g k).coordinate.x) := by
  induction l, hkl using Nat.le_induction with
  | base => exact ⟨fun _ => le_refl _, fun _ => le_refl _⟩
  | succ l hl ih =>
      have hxi := stepN_x_increment g l
      have hnext := next_x (stepN g l)
      constructor <;> intro hs
      · have h1 := ih.1 hs
        rw [stepN]
        rcases hnext with h | h <;> rw [h] <;> omega
      · have h2 := ih.2 hs
        rw [stepN]
        rcases hnext with h | h <;> rw [h] <;> omega

theorem stepN_majorStep (g : bresenham_line) (k : Nat) :
    majorStep (stepN g k) = majorStep g := by
  unfold majorStep
  rw [stepN_is_y_major, stepN_x_increment, stepN_y_increment]

theorem stepN_minorStep (g : bresenham_line) (k : Nat) :
    minorStep (stepN g k) = minorStep g := by
  unfold minorStep
  rw [stepN_is_y_major, stepN_x_increment, stepN_y_increment]

theorem traversal_length (g : bresenham_line) :
    (traversal g).length = g.n_coordinates_remaining.toNat + 1 := by
  rw [traversal, collectAux_eq_map]
  simp

theorem traversal_getElem (g : bresenham_line) (n : Nat) (h : n < (traversal g).length) :
    (traversal g)[n] = (stepN g n).coordinate := by
  have h2 : n < g.n_coordinates_remaining.toNat + 1 := by rwa [traversal_length] at h
  simp only [traversal, collectAux_eq_map, List.getElem_map, List.getElem_range]

theorem stepN_y_mono (g : bresenham_line) (k l : Nat) (hkl : k ≤ l) :
    (g.y_increment = 1 → (stepN g k).coordinate.y ≤ (stepN g l).coordinate.y) ∧
    (g.y_increment = -1 → (stepN g l).coordinate.y ≤ (stepN g k).coordinate.y) := by
  induction l, hkl using Nat.le_induction with
  | base => exact ⟨fun _ => le_refl _, fun _ => le_refl _⟩
  | succ l hl ih =>
      have hyi := stepN_y_increment g l
      have hnext := next_y (stepN g l)
      constructor <;> intro hs
      · have h1 := ih.1 hs
        rw [stepN]
        rcases hnext with h | h <;> rw [h] <;> omega
      · have h2 := ih.2 hs
        rw [stepN]
        rcases hnext with h | h <;> rw [h] <;> omega

/-- The step-law postcondition at one state, as the spec phrases it: one
application of `next` moves the major-axis component by exactly the step
sign, the minor-axis component by `0` or its step sign, and consumes
exactly one point. -/
def stepLawAt (s : bresenham_line) : Prop :=
  majorVal s s.next.coordinate - majorVal s s.coordinate = majorStep s ∧
  (majorStep s = 1 ∨ majorStep s = -1) ∧
  (minorVal s s.next.coordinate - minorVal s s.coordinate = 0 ∨
   minorVal s s.next.coordinate - minorVal s s.coordinate = minorStep s) ∧
  (minorStep s = 1 ∨ minorStep s = -1) ∧
  s.next.n_coordinates_remaining = s.n_coordinates_remaining - 1

end bresenham_line

open bresenham_line

/-! ## The claims -/

/-- C1: the claim says the first produced coordinate equals `first` and the
coordinate after exactly `length()-1` advances equals `last`, for every pair.
The code violates the second half: for `first = (0,0)`, `last = (1,1)` the
full traversal is `[(0,0), (1,0)]` — the generator stops one minor-axis
increment short and never produces `(1,1)`.  (The constructor leaves
`do_minor_increment = false` even though `balance = 2*dx - dy >= 0`, so the
first `next()` skips the minor advance that Bresenham's algorithm requires;
the sequence cannot catch up on a 45-degree diagonal.) -/
theorem C1_endpoint_fails_on_diagonal :
    traversal (construct ⟨0, 0⟩ ⟨1, 1⟩) = [⟨0, 0⟩, ⟨1, 0⟩] ∧
    (traversal (construct ⟨0, 0⟩ ⟨1, 1⟩)).getLast? ≠ some ⟨1, 1⟩ := by
  decide

/-- C2: the claim says reset (`begin`) plus full traversal, twice, yields two
identical sequences.  The code violates this: `begin()` rewinds only
`coordinate` and `n_coordinates_remaining`, leaving `balance` and
`do_minor_increment` at their post-traversal values, so for the line
`(0,0) -> (2,1)` the first traversal is `[(0,0), (1,0), (2,1)]` and the
second is `[(0,0), (1,1), (2,1)]`. -/
theorem C2_restart_not_idempotent :
    traversal ((construct ⟨0, 0⟩ ⟨2, 1⟩).begin) = [⟨0, 0⟩, ⟨1, 0⟩, ⟨2, 1⟩] ∧
    traversal ((runAll ((construct ⟨0, 0⟩ ⟨2, 1⟩).begin)).begin) =
      [⟨0, 0⟩, ⟨1, 1⟩, ⟨2, 1⟩] ∧
    traversal ((runAll ((construct ⟨0, 0⟩ ⟨2, 1⟩).begin)).begin) ≠
      traversal ((construct ⟨0, 0⟩ ⟨2, 1⟩).begin) := by
  decide

/-- C3: the claim says a pure diagonal (`|dx| == |dy|`) produces exactly
`first + k*(x_step, y_step)` for `k = 0..dx`, both axes advancing every
step.  The code violates this: for `(0,0) -> (2,2)` it produces
`[(0,0), (1,0), (2,1)]`, not `[(0,0), (1,1), (2,2)]` — the first step
advances only x, and every later point is one y short. -/
theorem C3_tie_rule_fails :
    traversal (construct ⟨0, 0⟩ ⟨2, 2⟩) = [⟨0, 0⟩, ⟨1, 0⟩, ⟨2, 1⟩] ∧
    traversal (construct ⟨0, 0⟩ ⟨2, 2⟩) ≠ [⟨0, 0⟩, ⟨1, 1⟩, ⟨2, 2⟩] := by
  decide

/-- C5: `size()` returns `max(|a.x-b.x|, |a.y-b.y|) + 1` for every pair of
endpoints.  (`size` is a pure projection of the state — in the embedding it
takes the state and returns a number, so it cannot mutate the generator.) -/
theorem C5_length_law (a b : Coordinate) :
    (construct a b).size = max (b.x - a.x).natAbs (b.y - a.y).natAbs + 1 := by
  simp only [size, construct_total, rawDx_natAbs a b, rawDy_natAbs a b]
  split <;> omega

/-- C6: one application of the step algorithm from any reachable state with
points remaining moves the major-axis component by exactly the step sign
(which is `+1` or `-1`), the minor-axis component by `0` or its step sign,
and consumes exactly one coordinate. -/
theorem C6_step_law (a b : Coordinate) (k : Nat)
    (h : 0 < (stepN (construct a b) k).n_coordinates_remaining) :
    stepLawAt (stepN (construct a b) k) := by
  refine ⟨?_, ?_, ?_, ?_, next_remaining _⟩
  · have := next_major (stepN (construct a b) k)
    omega
  · rw [stepN_majorStep]
    exact construct_majorStep_pm a b
  · rcases next_minor (stepN (construct a b) k) with h2 | h2
    · left; omega
    · right; omega
  · rw [stepN_minorStep]
    exact construct_minorStep_pm a b

/-- Witness for C6 at `first = (0,0)`, `last = (3,1)`, `k = 0`. -/
theorem C6_step_law_witness :
    0 < (stepN (construct ⟨0, 0⟩ ⟨3, 1⟩) 0).n_coordinates_remaining ∧
    stepLawAt (stepN (construct ⟨0, 0⟩ ⟨3, 1⟩) 0) :=
  ⟨by decide, C6_step_law ⟨0, 0⟩ ⟨3, 1⟩ 0 (by decide)⟩

/-- C7: over a whole traversal the major-axis components are strictly
monotonic in the direction of the major step (increasing when the step is
`+1`, decreasing when `-1`), each axis is monotonic in its own step
direction, and no coordinate appears twice. -/
theorem C7_monotonicity (a b : Coordinate) :
    List.Pairwise
      (fun p q : Int =>
        (majorStep (construct a b) = 1 → p < q) ∧
        (majorStep (construct a b) = -1 → q < p))
      ((traversal (construct a b)).map (majorVal (construct a b))) ∧
    List.Pairwise
      (fun p q : Coordinate =>
        ((construct a b).x_increment = 1 → p.x ≤ q.x) ∧
        ((construct a b).x_increment = -1 → q.x ≤ p.x) ∧
        ((construct a b).y_increment = 1 → p.y ≤ q.y) ∧
        ((construct a b).y_increment = -1 → q.y ≤ p.y))
      (traversal (construct a b)) ∧
    (traversal (construct a b)).Nodup := by
  have hmap : traversal (construct a b)
      = (List.range ((construct a b).n_coordinates_remaining.toNat + 1)).map
          (fun k => (stepN (construct a b) k).coordinate) :=
    collectAux_eq_map _ _
  refine ⟨?_, ?_, ?_⟩
  · rw [hmap, List.map_map, List.pairwise_map]
    apply (List.pairwise_lt_range _).imp
    intro i j hij
    have hi := stepN_major_closed a b i
    have hj := stepN_major_closed a b j
    constructor <;> intro hs <;> rw [hs] at hi hj <;>
      simp only [Function.comp_apply] <;> omega
  · rw [hmap, List.pairwise_map]
    apply (List.pairwise_lt_range _).imp
    intro i j hij
    have hx := stepN_x_mono (construct a b) i j (le_of_lt hij)
    have hy := stepN_y_mono (construct a b) i j (le_of_lt hij)
    exact ⟨hx.1, hx.2, hy.1, hy.2⟩
  · apply List.Nodup.of_map (majorVal (construct a b))
    rw [hmap, List.map_map]
    show List.Pairwise _ _
    rw [List.pairwise_map]
    apply (List.pairwise_lt_range _).imp
    intro i j hij
    have hi := stepN_major_closed a b i
    have hj := stepN_major_closed a b j
    simp only [Function.comp_apply]
    rcases construct_majorStep_pm a b with hs | hs <;> rw [hs] at hi hj <;>
      intro hEq <;> omega

/-- C8: a degenerate line with `first == last` produces exactly `[first]`
and has length 1; it is an ordinary case of the algorithm, not an error. -/
theorem C8_degenerate (p : Coordinate) :
    traversal (construct p p) = [p] ∧ (construct p p).size = 1 := by
  have hdx : rawDx p p = 0 := by unfold rawDx; simp
  have hdy : rawDy p p = 0 := by unfold rawDy; simp
  constructor
  · unfold traversal
    rw [construct_remaining, hdx, hdy]
    simp [collectAux, construct_coordinate]
  · unfold size
    rw [construct_total, hdx, hdy]
    simp

/-- C9: advancing a cursor whose generator has no points remaining turns it
into the end-marker (it compares equal to `end()`), producing no coordinate;
dereferencing the end-marker yields no coordinate (the null-pointer
precondition violation). -/
theorem C9_advance_past_end (b : bresenham_line)
    (h : b.n_coordinates_remaining = 0) :
    iter_inc b = iter_end ∧ iter_deref (iter_inc b) = none ∧
    iter_deref iter_end = none := by
  unfold iter_inc iter_end iter_deref
  simp [h]

/-- Witness for C9 at the degenerate generator `(0,0) -> (0,0)`, which has
zero coordinates remaining from the start. -/
theorem C9_advance_past_end_witness :
    (construct ⟨0, 0⟩ ⟨0, 0⟩).n_coordinates_remaining = 0 ∧
    (iter_inc (construct ⟨0, 0⟩ ⟨0, 0⟩) = iter_end ∧
     iter_deref (iter_inc (construct ⟨0, 0⟩ ⟨0, 0⟩)) = none ∧
     iter_deref iter_end = none) :=
  ⟨by decide, C9_advance_past_end _ (by decide)⟩

/-- C10: the major-axis selection is stable over the generator's lifetime:
after any number of steps, `is_y_major_axis()` (evaluated on the internally
doubled `dx`, `dy`) returns exactly the comparison of the raw absolute
deltas made at construction, and the `dx`, `dy` fields themselves never
change after construction. -/
theorem C10_major_axis_stable (a b : Coordinate) (k : Nat) :
    (stepN (construct a b) k).is_y_major_axis = decide (rawDx a b < rawDy a b) ∧
    (stepN (construct a b) k).dx = rawDx a b * 2 ∧
    (stepN (construct a b) k).dy = rawDy a b * 2 ∧
    rawDx a b = ((b.x - a.x).natAbs : Int) ∧
    rawDy a b = ((b.y - a.y).natAbs : Int) := by
  refine ⟨?_, ?_, ?_, rawDx_natAbs a b, rawDy_natAbs a b⟩
  · rw [stepN_is_y_major, construct_is_y_major]
  · rw [stepN_dx, construct_dx]
  · rw [stepN_dy, construct_dy]

/-- C4 counterexample: the claim says swapping the endpoints yields the
exact reverse sequence.  It fails already for `a = (0,0)`, `b = (4,1)`:
`(a,b)` produces `[(0,0),(1,0),(2,1),(3,1),(4,1)]` while `(b,a)` produces
`[(4,1),(3,1),(2,0),(1,0),(0,0)]`, whose third element `(2,0)` is not the
`(2,1)` of the reversed forward sequence — the minor-axis rounding is not
symmetric under endpoint exchange. -/
theorem C4_reversal_counterexample :
    traversal (construct ⟨4, 1⟩ ⟨0, 0⟩) ≠
      (traversal (construct ⟨0, 0⟩ ⟨4, 1⟩)).reverse := by
  decide

/-- C4 amended: generating with swapped endpoints yields a sequence of the
same length whose major-axis components are the exact reverse of those of
the original sequence (the full coordinate sequences need not be
reverses of each other). -/
theorem C4_major_axis_reversal (a b : Coordinate) :
    (traversal (construct b a)).length = (traversal (construct a b)).length ∧
    (traversal (construct b a)).map (majorComp a b)
      = ((traversal (construct a b)).map (majorComp a b)).reverse := by
  have hdx := rawDx_comm a b
  have hdy := rawDy_comm a b
  have hlen : (traversal (construct b a)).length = (traversal (construct a b)).length := by
    rw [traversal_length, traversal_length, construct_remaining, construct_remaining,
      hdx, hdy]
  refine ⟨hlen, ?_⟩
  have hL : (traversal (construct a b)).length
      = (if rawDx a b < rawDy a b then rawDy a b else rawDx a b).toNat + 1 := by
    rw [traversal_length, construct_remaining]
  apply List.ext_getElem
  · simp [hlen]
  · intro n h1 h2
    have hn1 : n < (traversal (construct b a)).length := by
      simpa using h1
    have hbound : n < (traversal (construct a b)).length := by
      rw [← hlen]; exact hn1
    rw [List.getElem_reverse]
    rw [List.getElem_map, List.getElem_map]
    rw [traversal_getElem _ _ hn1]
    have hm : (List.map (majorComp a b) (traversal (construct a b))).length - 1 - n
        < (traversal (construct a b)).length := by
      simp only [List.length_map]
      omega
    rw [traversal_getElem _ _ hm]
    set m : Nat := (List.map (majorComp a b) (traversal (construct a b))).length - 1 - n
      with hmdef
    have hmlen : m = (traversal (construct a b)).length - 1 - n := by
      rw [hmdef, List.length_map]
    by_cases h : rawDx a b < rawDy a b
    · -- Y is the major axis for both directions.
      have h' : rawDx b a < rawDy b a := by rw [hdx, hdy]; exact h
      simp only [majorComp, if_pos h]
      rw [stepN_y_closed b a h' n, stepN_y_closed a b h m]
      rw [construct_y_increment, construct_y_increment]
      have hcast : ((rawDy a b).toNat : Int) = rawDy a b :=
        Int.toNat_of_nonneg (rawDy_nonneg a b)
      have hraw : rawDy a b = if b.y < a.y then a.y - b.y else b.y - a.y := rfl
      have hLn : n < (rawDy a b).toNat + 1 := by
        rw [hL, if_pos h] at hbound
        exact hbound
      have hM : m = (rawDy a b).toNat + 1 - 1 - n := by
        rw [hmlen, hL, if_pos h]
      rcases lt_trichotomy a.y b.y with hy | hy | hy
      · rw [if_neg (by omega : ¬ b.y < a.y)] at hraw
        rw [if_pos (by omega : a.y < b.y), if_neg (by omega : ¬ b.y < a.y), hM]
        omega
      · rw [if_neg (by omega : ¬ b.y < a.y)] at hraw
        rw [if_neg (by omega : ¬ a.y < b.y), if_neg (by omega : ¬ b.y < a.y), hM]
        omega
      · rw [if_pos (by omega : b.y < a.y)] at hraw
        rw [if_neg (by omega : ¬ a.y < b.y), if_pos (by omega : b.y < a.y), hM]
        omega
    · -- X is the major axis for both directions.
      have h' : ¬ rawDx b a < rawDy b a := by rw [hdx, hdy]; exact h
      simp only [majorComp, if_neg h]
      rw [stepN_x_closed b a h' n, stepN_x_closed a b h m]
      rw [construct_x_increment, construct_x_increment]
      have hcast : ((rawDx a b).toNat : Int) = rawDx a b :=
        Int.toNat_of_nonneg (rawDx_nonneg a b)
      have hraw : rawDx a b = if b.x < a.x then a.x - b.x else b.x - a.x := rfl
      have hLn : n < (rawDx a b).toNat + 1 := by
        rw [hL, if_neg h] at hbound
        exact hbound
      have hM : m = (rawDx a b).toNat + 1 - 1 - n := by
        rw [hmlen, hL, if_neg h]
      rcases lt_trichotomy a.x b.x with hx | hx | hx
      · rw [if_neg (by omega : ¬ b.x < a.x)] at hraw
        rw [if_pos (by omega : a.x < b.x), if_neg (by omega : ¬ b.x < a.x), hM]
        omega
      · rw [if_neg (by omega : ¬ b.x < a.x)] at hraw
        rw [if_neg (by omega : ¬ a.x < b.x), if_neg (by omega : ¬ b.x < a.x), hM]
        omega
      · rw [if_pos (by omega : b.x < a.x)] at hraw
        rw [if_neg (by omega : ¬ a.x < b.x), if_pos (by omega : b.x < a.x), hM]
        omega
